import Mathlib

/-!
Shallow embedding of `src/python/lsst/ctrl/cwl/cwlBuilder.py` (the
`CWLBuilder` class and the module-level `make_step` function), together
with proofs about the translation from a quantum DAG to a CWL workflow
document plus auxiliary data document.

Python dictionaries are modelled as insertion-ordered association lists
(`insertA` replaces in place when the key is present, appends otherwise,
exactly like `d[k] = v` / `d.update(...)` on a Python `dict`).  YAML
values are modelled by the inductive `CVal`.  `hash(node)` is modelled by
the DAG's `hash` field (an integer-valued function of the node), and the
opaque byte producers `pickle.dumps` / `zlib.compress` are abstract
parameters; `base64.b64encode` is modelled concretely by `b64encode`
below.  Decimal rendering of a nonnegative integer (Python f-string
`f"{qhash}_job"` etc.) is modelled by `natStr`.
-/

namespace CtrlCwl

/-- Association list with string keys: the model of a Python `dict`
(insertion ordered). -/
abbrev AList (α : Type) := List (String × α)

/-- Model of `d[k] = v` on a Python dict: replace in place if the key is
present, append otherwise. -/
def insertA {α : Type} : AList α → String → α → AList α
  | [], k, v => [(k, v)]
  | p :: ps, k, v => if p.1 = k then (k, v) :: ps else p :: insertA ps k v

/-- Lookup in an association list (first match). -/
def lookupA {α : Type} : AList α → String → Option α
  | [], _ => none
  | p :: ps, k => if p.1 = k then some p.2 else lookupA ps k

/-- The keys of an association list, in order. -/
def keysOf {α : Type} (m : AList α) : List String := m.map (fun p => p.1)

/-! ### Decimal rendering of a natural number (model of Python `str(int)`) -/

/-- The character for one decimal digit. -/
def digitChar : Nat → Char
  | 0 => '0'
  | 1 => '1'
  | 2 => '2'
  | 3 => '3'
  | 4 => '4'
  | 5 => '5'
  | 6 => '6'
  | 7 => '7'
  | 8 => '8'
  | 9 => '9'
  | _ => 'x'

/-- Numeric value of a digit character. -/
def digitVal (c : Char) : Nat := c.toNat - 48

/-- Fuelled most-significant-first decimal digits of `n` (empty for 0). -/
def natDigitsAux : Nat → Nat → List Char
  | 0, _ => []
  | fuel + 1, n => if n = 0 then [] else natDigitsAux fuel (n / 10) ++ [digitChar (n % 10)]

/-- Decimal rendering of a natural number, the model of Python `str(n)`
for the nonnegative `n = abs(hash(node))`. -/
def natStr (n : Nat) : String := if n = 0 then "0" else String.mk (natDigitsAux n n)

/-- Value of a digit string, most significant first. -/
def digitsVal (cs : List Char) : Nat := cs.foldl (fun a c => a * 10 + digitVal c) 0

/-! ### Base64 (concrete model of `base64.b64encode` / decoding) -/

/-- The base64 alphabet. -/
def b64Alphabet : List Char :=
  "ABCDEFGHIJKLMNOPQRSTUVWXYZabcdefghijklmnopqrstuvwxyz0123456789+/".data

/-- Character for a sextet value. -/
def sextetChar (n : Nat) : Char := b64Alphabet.getD n 'A'

/-- Sextet value of a base64 character. -/
def charSextet (c : Char) : Nat := (b64Alphabet.indexOf c)

/-- Base64 encoding of a byte list (bytes as naturals below 256),
including padding, exactly as `base64.b64encode` produces. -/
def b64encode : List Nat → List Char
  | [] => []
  | [b1] => [sextetChar (b1 / 4), sextetChar (b1 % 4 * 16), '=', '=']
  | [b1, b2] => [sextetChar (b1 / 4), sextetChar (b1 % 4 * 16 + b2 / 16),
      sextetChar (b2 % 16 * 4), '=']
  | b1 :: b2 :: b3 :: rest =>
      sextetChar (b1 / 4) :: sextetChar (b1 % 4 * 16 + b2 / 16) ::
      sextetChar (b2 % 16 * 4 + b3 / 64) :: sextetChar (b3 % 64) :: b64encode rest

/-- Base64 decoding (text-safe decoding back to bytes). -/
def b64decode : List Char → List Nat
  | c1 :: c2 :: c3 :: c4 :: rest =>
      if c3 = '=' then
        [charSextet c1 * 4 + charSextet c2 / 16]
      else if c4 = '=' then
        [charSextet c1 * 4 + charSextet c2 / 16,
         charSextet c2 % 16 * 16 + charSextet c3 / 4]
      else
        (charSextet c1 * 4 + charSextet c2 / 16) ::
        (charSextet c2 % 16 * 16 + charSextet c3 / 4) ::
        (charSextet c3 % 4 * 64 + charSextet c4) :: b64decode rest
  | _ => []

/-! ### YAML-style values -/

/-- A YAML-compatible value, the model of the nested Python dict / list /
string / int / bool structure held in `CWLBuilder._cwl_file`. -/
inductive CVal : Type where
  | str : String → CVal
  | int : Int → CVal
  | bool : Bool → CVal
  | list : List CVal → CVal
  | map : List (String × CVal) → CVal

/-- The entries of a map value (empty for non-maps). -/
def getMap : CVal → AList CVal
  | CVal.map kvs => kvs
  | _ => []

/-- The elements of a list value (empty for non-lists). -/
def getList : CVal → List CVal
  | CVal.list vs => vs
  | _ => []

/-- Field access in a map value, with an empty-map default. -/
def mapGet (v : CVal) (k : String) : CVal := (lookupA (getMap v) k).getD (CVal.map [])

/-- The string elements of a list value. -/
def strsOf (v : CVal) : List String :=
  (getList v).filterMap (fun x => match x with | CVal.str s => some s | _ => none)

/-! ### The program: `make_step`, `CWLBuilder` -/

/-- Model of the module-level `make_step` function of `cwlBuilder.py`:
pure assembly of one workflow step record. -/
def make_step (inField : CVal) (outField : CVal) (command : String) (stdout : String)
    (inputs : CVal) (output_key : String) : CVal :=
  CVal.map [("in", inField), ("out", outField),
    ("run", CVal.map [
      ("class", CVal.str "CommandLineTool"),
      ("baseCommand", CVal.str command),
      ("stdout", CVal.str stdout),
      ("inputs", inputs),
      ("outputs", CVal.map [(output_key, CVal.map [("type", CVal.str "stdout")])])])]

/-- The DAG handed to the builder: node iteration order (`for quantum in
quantumGraph`), predecessor enumeration (`graph.predecessors`), and the
Python `hash` of a node.  Modelled from the spec where the concrete
`QuantumGraphNew` / `QuantumNode` classes are absent from the source:
the spec requires a stable content-derived hash and allows an arbitrary
stable iteration order. -/
structure DAG (Node : Type) where
  nodes : List Node
  preds : Node → List Node
  hash : Node → Int

/-- The derived identifier `abs(hash(quantum))` of a node. -/
def qid {Node : Type} (g : DAG Node) (q : Node) : Nat := (g.hash q).natAbs

/-- The step key of identifier `n` (Python f-string `"<n>_job"`). -/
def jobKey (n : Nat) : String := natStr n ++ "_job"

/-- The output key of identifier `n` (`"<n>_output"`). -/
def outKey (n : Nat) : String := natStr n ++ "_output"

/-- The quantum key of identifier `n` (`"<n>_quantum"`). -/
def quantumKey (n : Nat) : String := natStr n ++ "_quantum"

/-- The per-node butler input key of identifier `n` (`"<n>_butler"`). -/
def butlerKey (n : Nat) : String := natStr n ++ "_butler"

/-- The output reference of identifier `n` (`"<n>_job/<n>_output"`). -/
def outRef (n : Nat) : String := jobKey n ++ "/" ++ outKey n

/-- The initialization step's output reference. -/
def initRef : String := "init_job/init_job_output"

/-- The predecessor references built in `add_quantum`, in the
predecessor enumeration order of the graph. -/
def predecessorRefs {Node : Type} (g : DAG Node) (q : Node) : List String :=
  (g.preds q).map (fun p => outRef (qid g p))

/-- The final `source` list of a node: the predecessor references, with
the initialization reference appended when there are none. -/
def sourcesOf {Node : Type} (g : DAG Node) (q : Node) : List String :=
  let ps := predecessorRefs g q
  if ps.length = 0 then ps ++ [initRef] else ps

/-- The dependency field `predDict`: `{source: refs}`, plus the
`linkMerge: merge_nested` annotation when exactly one reference is
present. -/
def predDict (refs : List String) : CVal :=
  if refs.length = 1 then
    CVal.map [("source", CVal.list (refs.map CVal.str)),
              ("linkMerge", CVal.str "merge_nested")]
  else
    CVal.map [("source", CVal.list (refs.map CVal.str))]

/-- The step built for one quantum node in `add_quantum`. -/
def nodeStep {Node : Type} (g : DAG Node) (q : Node) : CVal :=
  let qhash := qid g q
  make_step
    (CVal.map [("dependencies", predDict (sourcesOf g q)),
               (butlerKey qhash, CVal.str "butler"),
               (quantumKey qhash, CVal.str (quantumKey qhash))])
    (CVal.list [CVal.str (outKey qhash)])
    "cwlExecutor"
    (natStr qhash ++ "_output.txt")
    (CVal.map [(quantumKey qhash,
                 CVal.map [("type", CVal.str "string"),
                           ("inputBinding", CVal.map [("position", CVal.int 1)])]),
               (butlerKey qhash,
                 CVal.map [("type", CVal.str "string"),
                           ("inputBinding", CVal.map [("position", CVal.int 2)])]),
               ("dependencies",
                 CVal.map [("type", CVal.str "File[]"),
                           ("inputBinding",
                             CVal.map [("prefix", CVal.str "--deps="),
                                       ("itemSeparator", CVal.str ","),
                                       ("separate", CVal.bool false)])])])
    (outKey qhash)

/-- The top-level output entry registered for a node. -/
def outputsEntry (n : Nat) : CVal :=
  CVal.map [("type", CVal.str "File"), ("outputSource", CVal.str (outRef n))]

/-- The builder state: `_cwl_file` (whose top-level keys are fixed by
`_add_header` in the order `cwlVersion`, `class`, `inputs`, `outputs`,
`steps`, so they are structure fields; `klass` models the key
`"class"`) and `_cwl_data`. -/
structure CWLBuilder : Type where
  cwlVersion : String
  klass : String
  inputs : AList CVal
  outputs : AList CVal
  steps : AList CVal
  data : AList String

/-- The initialization step built by `_add_init`. -/
def initStep : CVal :=
  make_step
    (CVal.map [("butler", CVal.str "butler"), ("pipeline", CVal.str "pipeline")])
    (CVal.list [CVal.str "init_job_output"])
    "cwlInit"
    "init_output.txt"
    (CVal.map [("pipeline",
                 CVal.map [("type", CVal.str "string"),
                           ("inputBinding", CVal.map [("position", CVal.int 1)])]),
               ("butler",
                 CVal.map [("type", CVal.str "string"),
                           ("inputBinding", CVal.map [("position", CVal.int 2)])])])
    "init_job_output"

/-- The builder state after `_add_header`, `steps = {}` and `_add_init`:
header fields, the two top-level inputs, the `init_job` step, and the
encoded pipeline payload (`pipelineBytes` stands for
`pickle.dumps(topological_sort(taskGraph))`). -/
def initBuilder (pipelineBytes : List Nat) : CWLBuilder :=
  { cwlVersion := "v1.0"
    klass := "Workflow"
    inputs := [("butler", CVal.str "string"), ("pipeline", CVal.str "string")]
    outputs := []
    steps := [("init_job", initStep)]
    data := [("pipeline", String.mk (b64encode pipelineBytes))] }

/-- Model of `CWLBuilder.add_quantum`: register the node's step,
top-level input, top-level output, and auxiliary-data entry.  `serNode q`
stands for the bytes `zlib.compress(pickle.dumps(q))`. -/
def add_quantum {Node : Type} (g : DAG Node) (serNode : Node → List Nat)
    (b : CWLBuilder) (q : Node) : CWLBuilder :=
  let qhash := qid g q
  { b with
    steps := insertA b.steps (jobKey qhash) (nodeStep g q)
    inputs := insertA b.inputs (quantumKey qhash) (CVal.str "string")
    outputs := insertA b.outputs (outKey qhash) (outputsEntry qhash)
    data := insertA b.data (quantumKey qhash) (String.mk (b64encode (serNode q))) }

/-- The `for quantum in quantumGraph: self.add_quantum(...)` loop over a
given visiting order. -/
def runQuanta {Node : Type} (g : DAG Node) (serNode : Node → List Nat)
    (b : CWLBuilder) (qs : List Node) : CWLBuilder :=
  qs.foldl (add_quantum g serNode) b

/-- Model of `CWLBuilder.__init__`: header + init step, the quantum
loop over the graph's iteration order, then the encoded butler payload
(`butlerBytes` stands for `pickle.dumps(butler)`). -/
def buildCWL {Node : Type} (g : DAG Node) (serNode : Node → List Nat)
    (pipelineBytes butlerBytes : List Nat) : CWLBuilder :=
  let b := runQuanta g serNode (initBuilder pipelineBytes) g.nodes
  { b with data := insertA b.data "butler" (String.mk (b64encode butlerBytes)) }

/-! ### Serialization (`to_yaml_strings`) -/

mutual

/-- Deterministic flow-style rendering of a value: the model of
`yaml.dump(..., sort_keys=False)`, which emits mappings in insertion
order. -/
def yamlV : CVal → String
  | CVal.str s => "\x22" ++ s ++ "\x22"
  | CVal.int n => toString n
  | CVal.bool b => cond b "true" "false"
  | CVal.list vs => "[" ++ yamlL vs ++ "]"
  | CVal.map kvs => "\x7b" ++ yamlM kvs ++ "\x7d"

/-- Comma-separated rendering of list elements. -/
def yamlL : List CVal → String
  | [] => ""
  | [v] => yamlV v
  | v :: vs => yamlV v ++ ", " ++ yamlL vs

/-- Comma-separated rendering of map entries, in insertion order. -/
def yamlM : AList CVal → String
  | [] => ""
  | [(k, v)] => k ++ ": " ++ yamlV v
  | (k, v) :: kvs => k ++ ": " ++ yamlV v ++ ", " ++ yamlM kvs

end

/-- The `_cwl_file` dict of a builder as a single value, top-level keys
in the order `_add_header` establishes. -/
def fileDoc (b : CWLBuilder) : CVal :=
  CVal.map [("cwlVersion", CVal.str b.cwlVersion), ("class", CVal.str b.klass),
            ("inputs", CVal.map b.inputs), ("outputs", CVal.map b.outputs),
            ("steps", CVal.map b.steps)]

/-- Model of `CWLBuilder.to_yaml_strings`: the serialized workflow
document and the serialized auxiliary data document. -/
def to_yaml_strings (b : CWLBuilder) : String × String :=
  (yamlV (fileDoc b),
   yamlM (b.data.map (fun kv => (kv.1, CVal.str kv.2))))

/-! ### Observers on steps and invariants -/

/-- All dependency references of a step: the string entries of the
`source` list inside the `dependencies` entry of the step's `in` field. -/
def stepSources (st : CVal) : List String :=
  strsOf (mapGet (mapGet (mapGet st "in") "dependencies") "source")

/-- Whether the step's dependency field carries the
`linkMerge: merge_nested` ("merge as nested single value") annotation. -/
def hasLinkMerge (st : CVal) : Bool :=
  (lookupA (getMap (mapGet (mapGet st "in") "dependencies")) "linkMerge").isSome

/-- A dependency reference is accounted for by a steps map when it is the
initialization step's output reference or the output reference of a job
key present in the map. -/
def refOK (steps : AList CVal) (r : String) : Prop :=
  r = initRef ∨ ∃ n : Nat, jobKey n ∈ keysOf steps ∧ r = outRef n

/-- Invariant I2: every dependency reference of every present step names
the initialization output or the output of a step present in the map. -/
def allRefsOK (steps : AList CVal) : Prop :=
  ∀ kv ∈ steps, ∀ r ∈ stepSources kv.2, refOK steps r

/-- A step declares exactly one output: its `out` field is the
one-element list of some key, and its `run.outputs` map is exactly that
key mapped to the stdout type. -/
def singleOutput (st : CVal) : Prop :=
  ∃ okey, mapGet st "out" = CVal.list [CVal.str okey] ∧
    mapGet (mapGet st "run") "outputs" =
      CVal.map [(okey, CVal.map [("type", CVal.str "stdout")])]

/-! ### Concrete instances used to exercise the theorems -/

/-- Two-node chain over `Nat` nodes: node 0 feeds node 1; the hash is
the node itself, iterated in dependency order. -/
def gChain : DAG Nat :=
  { nodes := [0, 1]
    preds := fun n => if n = 1 then [0] else []
    hash := fun n => (n : Int) }

/-- The same chain iterated backwards: node 1 is visited before its
predecessor 0. -/
def gChainRev : DAG Nat :=
  { nodes := [1, 0]
    preds := fun n => if n = 1 then [0] else []
    hash := fun n => (n : Int) }

/-- The empty DAG. -/
def gEmpty : DAG Nat :=
  { nodes := []
    preds := fun _ => []
    hash := fun n => (n : Int) }

/-- Two distinct nodes whose hashes collide. -/
def gColl : DAG Nat :=
  { nodes := [0, 1]
    preds := fun _ => []
    hash := fun _ => (5 : Int) }

/-- A concrete node serializer for the instances above. -/
def serW : Nat → List Nat := fun _ => [0, 255, 7]

/-- The fan-in scenario of the spec: nodes 0 and 1 both feed node 2. -/
def gFan : DAG Nat :=
  { nodes := [0, 1, 2]
    preds := fun n => if n = 2 then [0, 1] else []
    hash := fun n => (n : Int) }

/-! ### Association-list lemmas -/

theorem keysOf_nil {α : Type} : keysOf ([] : AList α) = [] := rfl

theorem keysOf_cons {α : Type} (p : String × α) (ps : AList α) :
    keysOf (p :: ps) = p.1 :: keysOf ps := rfl

theorem insertA_of_not_mem {α : Type} {m : AList α} {k : String} (v : α)
    (h : k ∉ keysOf m) : insertA m k v = m ++ [(k, v)] := by
  induction m with
  | nil => rfl
  | cons p ps ih =>
    simp only [keysOf_cons, List.mem_cons] at h
    push_neg at h
    simp only [insertA, if_neg (Ne.symm h.1), List.cons_append]
    rw [ih h.2]

theorem keysOf_insertA_of_mem {α : Type} {m : AList α} {k : String} (v : α)
    (h : k ∈ keysOf m) : keysOf (insertA m k v) = keysOf m := by
  induction m with
  | nil => simp [keysOf_nil] at h
  | cons p ps ih =>
    simp only [keysOf_cons, List.mem_cons] at h
    by_cases hp : p.1 = k
    · simp [insertA, hp, keysOf_cons]
    · rcases h with h | h
      · exact absurd h.symm hp
      · simp [insertA, hp, keysOf_cons, ih h]

theorem mem_keysOf_insertA_self {α : Type} (m : AList α) (k : String) (v : α) :
    k ∈ keysOf (insertA m k v) := by
  induction m with
  | nil => simp [insertA, keysOf_cons]
  | cons p ps ih =>
    by_cases hp : p.1 = k
    · simp [insertA, hp, keysOf_cons]
    · simp only [insertA, if_neg hp, keysOf_cons, List.mem_cons]
      exact Or.inr ih

theorem keysOf_insertA_mono {α : Type} {m : AList α} {k' : String} (k : String) (v : α)
    (h : k' ∈ keysOf m) : k' ∈ keysOf (insertA m k v) := by
  induction m with
  | nil => simp [keysOf_nil] at h
  | cons p ps ih =>
    simp only [keysOf_cons, List.mem_cons] at h
    by_cases hp : p.1 = k
    · simp only [insertA, if_pos hp, keysOf_cons, List.mem_cons]
      rcases h with h | h
      · exact Or.inl (h.trans hp)
      · exact Or.inr h
    · simp only [insertA, if_neg hp, keysOf_cons, List.mem_cons]
      rcases h with h | h
      · exact Or.inl h
      · exact Or.inr (ih h)

theorem lookupA_insertA_self {α : Type} (m : AList α) (k : String) (v : α) :
    lookupA (insertA m k v) k = some v := by
  induction m with
  | nil => simp [insertA, lookupA]
  | cons p ps ih =>
    by_cases hp : p.1 = k
    · simp [insertA, hp, lookupA]
    · simp [insertA, hp, lookupA, ih]

theorem lookupA_insertA_ne {α : Type} {k' k : String} (m : AList α) (v : α)
    (h : k' ≠ k) : lookupA (insertA m k v) k' = lookupA m k' := by
  induction m with
  | nil => simp [insertA, lookupA, Ne.symm h]
  | cons p ps ih =>
    by_cases hp : p.1 = k
    · simp only [insertA, if_pos hp, lookupA]
      rw [if_neg (Ne.symm h), if_neg (show ¬(p.1 = k') by rw [hp]; exact Ne.symm h)]
    · simp only [insertA, if_neg hp, lookupA]
      by_cases hp' : p.1 = k'
      · rw [if_pos hp', if_pos hp']
      · rw [if_neg hp', if_neg hp', ih]

theorem length_insertA_of_mem {α : Type} {m : AList α} {k : String} (v : α)
    (h : k ∈ keysOf m) : (insertA m k v).length = m.length := by
  induction m with
  | nil => simp [keysOf_nil] at h
  | cons p ps ih =>
    simp only [keysOf_cons, List.mem_cons] at h
    by_cases hp : p.1 = k
    · simp [insertA, hp]
    · rcases h with h | h
      · exact absurd h.symm hp
      · simp [insertA, hp, ih h]

theorem mem_insertA {α : Type} {m : AList α} {k : String} {v : α} {kv : String × α}
    (h : kv ∈ insertA m k v) : kv ∈ m ∨ kv = (k, v) := by
  induction m with
  | nil => simpa [insertA] using h
  | cons p ps ih =>
    by_cases hp : p.1 = k
    · simp only [insertA, if_pos hp, List.mem_cons] at h
      rcases h with h | h
      · exact Or.inr h
      · exact Or.inl (List.mem_cons_of_mem _ h)
    · simp only [insertA, if_neg hp, List.mem_cons] at h
      rcases h with h | h
      · exact Or.inl (by simp [h])
      · rcases ih h with h' | h'
        · exact Or.inl (List.mem_cons_of_mem _ h')
        · exact Or.inr h'

/-! ### Decimal-rendering lemmas -/

theorem digitVal_digitChar : ∀ d, d < 10 → digitVal (digitChar d) = d := by decide

theorem digitChar_isDigit : ∀ d, d < 10 → (digitChar d).isDigit = true := by decide

theorem digitsVal_append (xs : List Char) (c : Char) :
    digitsVal (xs ++ [c]) = digitsVal xs * 10 + digitVal c := by
  simp [digitsVal, List.foldl_append]

theorem digitsVal_natDigitsAux :
    ∀ fuel n, n ≤ fuel → digitsVal (natDigitsAux fuel n) = n := by
  intro fuel
  induction fuel with
  | zero =>
    intro n h
    interval_cases n
    rfl
  | succ f ih =>
    intro n h
    by_cases hn : n = 0
    · simp [natDigitsAux, hn, digitsVal]
    · have hdiv : n / 10 ≤ f := by omega
      rw [natDigitsAux, if_neg hn, digitsVal_append, ih _ hdiv,
        digitVal_digitChar _ (by omega)]
      omega

theorem digitsVal_natStr (n : Nat) : digitsVal (natStr n).data = n := by
  unfold natStr
  split
  · simp_all [digitsVal, digitVal]
  · exact digitsVal_natDigitsAux n n le_rfl

theorem natStr_inj {m n : Nat} (h : natStr m = natStr n) : m = n := by
  have h2 := congrArg (fun s => digitsVal s.data) h
  simpa [digitsVal_natStr] using h2

theorem natDigitsAux_isDigit :
    ∀ fuel n c, c ∈ natDigitsAux fuel n → c.isDigit = true := by
  intro fuel
  induction fuel with
  | zero => intro n c h; simp [natDigitsAux] at h
  | succ f ih =>
    intro n c h
    by_cases hn : n = 0
    · simp [natDigitsAux, hn] at h
    · rw [natDigitsAux, if_neg hn] at h
      rcases List.mem_append.mp h with h | h
      · exact ih _ _ h
      · rw [List.mem_singleton.mp h]
        exact digitChar_isDigit _ (by omega)

theorem natStr_data_isDigit (n : Nat) : ∀ c ∈ (natStr n).data, c.isDigit = true := by
  unfold natStr
  split
  · intro c h
    simp only [show ("0" : String).data = [Char.ofNat 48] from rfl, List.mem_singleton] at h
    subst h
    decide
  · intro c h
    exact natDigitsAux_isDigit n n c h

theorem natStr_data_ne_nil (n : Nat) : (natStr n).data ≠ [] := by
  unfold natStr
  split
  · decide
  · rename_i hn
    show natDigitsAux n n ≠ []
    match n, hn with
    | m + 1, _ => simp [natDigitsAux]

theorem natStr_head_isDigit (n : Nat) :
    ∃ c cs, (natStr n).data = c :: cs ∧ c.isDigit = true := by
  obtain ⟨c, cs, h⟩ := List.exists_cons_of_ne_nil (natStr_data_ne_nil n)
  exact ⟨c, cs, h, natStr_data_isDigit n c (by rw [h]; exact List.mem_cons_self _ _)⟩

theorem natStr_append_ne (n : Nat) (suf t : String)
    (hc : ∀ c, t.data.head? = some c → c.isDigit = false) : natStr n ++ suf ≠ t := by
  intro h
  obtain ⟨c, cs, hd, hdig⟩ := natStr_head_isDigit n
  have hh : t.data.head? = some c := by
    rw [← h]
    simp [String.data_append, hd]
  have := hc c hh
  rw [hdig] at this
  cases this

theorem key_append_inj {m n : Nat} (suf : String) (h : natStr m ++ suf = natStr n ++ suf) :
    m = n := by
  apply natStr_inj
  have hd : (natStr m).data ++ suf.data = (natStr n).data ++ suf.data := by
    have h2 := congrArg String.data h
    simpa [String.data_append] using h2
  have h3 : (natStr m).data = (natStr n).data := by
    have hlen : (natStr m).data.length = (natStr n).data.length := by
      have := congrArg List.length hd
      simp only [List.length_append] at this
      omega
    exact (List.append_inj hd hlen).1
  cases hm : natStr m with
  | mk dm =>
    cases hn : natStr n with
    | mk dn =>
      rw [hm, hn] at h3
      simp only at h3
      rw [h3]

theorem jobKey_inj {m n : Nat} (h : jobKey m = jobKey n) : m = n :=
  key_append_inj "_job" h

theorem jobKey_ne_init (n : Nat) : jobKey n ≠ "init_job" := by
  apply natStr_append_ne
  intro c h
  rw [show ("init_job" : String).data.head? = some ('i') from rfl] at h
  cases Option.some.inj h
  decide

theorem quantumKey_ne_pipeline (n : Nat) : quantumKey n ≠ "pipeline" := by
  apply natStr_append_ne
  intro c h
  rw [show ("pipeline" : String).data.head? = some ('p') from rfl] at h
  cases Option.some.inj h
  decide

theorem quantumKey_ne_butler (n : Nat) : quantumKey n ≠ "butler" := by
  apply natStr_append_ne
  intro c h
  rw [show ("butler" : String).data.head? = some ('b') from rfl] at h
  cases Option.some.inj h
  decide

theorem quantumKey_inj {m n : Nat} (h : quantumKey m = quantumKey n) : m = n :=
  key_append_inj "_quantum" h

/-! ### Base64 round-trip -/

theorem charSextet_sextetChar : ∀ n, n < 64 → charSextet (sextetChar n) = n := by decide

theorem sextetChar_ne_pad : ∀ n, n < 64 → sextetChar n ≠ '=' := by decide

theorem b64_byte1p (b1 : Nat) (h1 : b1 < 256) : b1 / 4 * 4 + b1 % 4 * 16 / 16 = b1 := by
  have e1 : b1 % 4 * 16 / 16 = b1 % 4 := Nat.mul_div_cancel _ (by norm_num)
  omega

theorem b64_byte1 (b1 b2 : Nat) (h1 : b1 < 256) (h2 : b2 < 256) :
    b1 / 4 * 4 + (b1 % 4 * 16 + b2 / 16) / 16 = b1 := by
  have e2 : (b1 % 4 * 16 + b2 / 16) / 16 = b1 % 4 := by
    rw [Nat.add_comm, Nat.add_mul_div_right _ _ (by norm_num : (0:Nat) < 16),
      Nat.div_eq_of_lt (by omega)]
    omega
  omega

theorem b64_byte2p (b1 b2 : Nat) (h2 : b2 < 256) :
    (b1 % 4 * 16 + b2 / 16) % 16 * 16 + b2 % 16 * 4 / 4 = b2 := by
  have e1 : (b1 % 4 * 16 + b2 / 16) % 16 = b2 / 16 := by
    rw [Nat.add_comm, Nat.add_mul_mod_self_right, Nat.mod_eq_of_lt (by omega)]
  have e2 : b2 % 16 * 4 / 4 = b2 % 16 := Nat.mul_div_cancel _ (by norm_num)
  omega

theorem b64_byte2 (b1 b2 b3 : Nat) (h2 : b2 < 256) (h3 : b3 < 256) :
    (b1 % 4 * 16 + b2 / 16) % 16 * 16 + (b2 % 16 * 4 + b3 / 64) / 4 = b2 := by
  have e1 : (b1 % 4 * 16 + b2 / 16) % 16 = b2 / 16 := by
    rw [Nat.add_comm, Nat.add_mul_mod_self_right, Nat.mod_eq_of_lt (by omega)]
  have e2 : (b2 % 16 * 4 + b3 / 64) / 4 = b2 % 16 := by
    rw [Nat.add_comm, Nat.add_mul_div_right _ _ (by norm_num : (0:Nat) < 4),
      Nat.div_eq_of_lt (by omega)]
    omega
  omega

theorem b64_byte3 (b2 b3 : Nat) (h3 : b3 < 256) :
    (b2 % 16 * 4 + b3 / 64) % 4 * 64 + b3 % 64 = b3 := by
  have e1 : (b2 % 16 * 4 + b3 / 64) % 4 = b3 / 64 := by
    rw [Nat.add_comm, Nat.add_mul_mod_self_right, Nat.mod_eq_of_lt (by omega)]
  omega

theorem b64_roundtrip : ∀ bs : List Nat, (∀ b ∈ bs, b < 256) →
    b64decode (b64encode bs) = bs := by
  intro bs
  induction bs using b64encode.induct with
  | case1 =>
    intro _
    rfl
  | case2 b1 =>
    intro h
    have h1 : b1 < 256 := h b1 (by simp)
    simp only [b64encode, b64decode, if_pos rfl]
    rw [charSextet_sextetChar _ (by omega), charSextet_sextetChar _ (by omega),
      b64_byte1p b1 h1]
    simp
  | case3 b1 b2 =>
    intro h
    have h1 : b1 < 256 := h b1 (by simp)
    have h2 : b2 < 256 := h b2 (by simp)
    simp only [b64encode, b64decode,
      if_neg (sextetChar_ne_pad (b2 % 16 * 4) (by omega)), if_pos rfl]
    rw [charSextet_sextetChar _ (by omega), charSextet_sextetChar _ (by omega),
      charSextet_sextetChar _ (by omega), b64_byte1 b1 b2 h1 h2, b64_byte2p b1 b2 h2]
    simp
  | case4 b1 b2 b3 rest ih =>
    intro h
    have h1 : b1 < 256 := h b1 (by simp)
    have h2 : b2 < 256 := h b2 (by simp)
    have h3 : b3 < 256 := h b3 (by simp)
    simp only [b64encode, b64decode,
      if_neg (sextetChar_ne_pad (b2 % 16 * 4 + b3 / 64) (by omega)),
      if_neg (sextetChar_ne_pad (b3 % 64) (by omega))]
    rw [charSextet_sextetChar _ (by omega), charSextet_sextetChar _ (by omega),
      charSextet_sextetChar _ (by omega), charSextet_sextetChar _ (by omega),
      b64_byte1 b1 b2 h1 h2, b64_byte2 b1 b2 b3 h2 h3, b64_byte3 b2 b3 h3,
      ih (fun b hb => h b (by simp [hb]))]

/-! ### Folded-insert lemmas -/

theorem foldl_insertA_length {α β : Type} (key : β → String) (val : β → α) :
    ∀ (xs : List β) (m : AList α), (xs.map key).Nodup →
    (∀ x ∈ xs, key x ∉ keysOf m) →
    (xs.foldl (fun m x => insertA m (key x) (val x)) m).length = m.length + xs.length := by
  intro xs
  induction xs with
  | nil => intro m _ _; rfl
  | cons x rest ih =>
    intro m hnd hfresh
    simp only [List.map_cons, List.nodup_cons] at hnd
    have hx : key x ∉ keysOf m := hfresh x (List.mem_cons_self _ _)
    have hkeys : keysOf (insertA m (key x) (val x)) = keysOf m ++ [key x] := by
      rw [insertA_of_not_mem _ hx]
      simp [keysOf]
    have hfresh' : ∀ y ∈ rest, key y ∉ keysOf (insertA m (key x) (val x)) := by
      intro y hy
      rw [hkeys]
      simp only [List.mem_append, List.mem_singleton]
      push_neg
      refine ⟨hfresh y (List.mem_cons_of_mem _ hy), fun e => hnd.1 ?_⟩
      rw [← e]
      exact List.mem_map_of_mem key hy
    rw [List.foldl_cons, ih _ hnd.2 hfresh', insertA_of_not_mem _ hx]
    simp only [List.length_append, List.length_cons, List.length_nil]
    omega

theorem foldl_insertA_keys {α β : Type} (key : β → String) (val : β → α) :
    ∀ (xs : List β) (m : AList α), (∀ x ∈ xs, key x ∉ keysOf m) →
    (xs.map key).Nodup →
    keysOf (xs.foldl (fun m x => insertA m (key x) (val x)) m) = keysOf m ++ xs.map key := by
  intro xs
  induction xs with
  | nil => intro m _ _; simp
  | cons x rest ih =>
    intro m hfresh hnd
    simp only [List.map_cons, List.nodup_cons] at hnd
    have hx : key x ∉ keysOf m := hfresh x (List.mem_cons_self _ _)
    have hkeys : keysOf (insertA m (key x) (val x)) = keysOf m ++ [key x] := by
      rw [insertA_of_not_mem _ hx]
      simp [keysOf]
    have hfresh' : ∀ y ∈ rest, key y ∉ keysOf (insertA m (key x) (val x)) := by
      intro y hy
      rw [hkeys]
      simp only [List.mem_append, List.mem_singleton]
      push_neg
      refine ⟨hfresh y (List.mem_cons_of_mem _ hy), fun e => hnd.1 ?_⟩
      rw [← e]
      exact List.mem_map_of_mem key hy
    rw [List.foldl_cons, ih _ hfresh' hnd.2, hkeys]
    simp

theorem foldl_insertA_lookup_not_mem {α β : Type} (key : β → String) (val : β → α) :
    ∀ (xs : List β) (m : AList α) (k : String), (∀ x ∈ xs, key x ≠ k) →
    lookupA (xs.foldl (fun m x => insertA m (key x) (val x)) m) k = lookupA m k := by
  intro xs
  induction xs with
  | nil => intro m k _; rfl
  | cons x rest ih =>
    intro m k hne
    rw [List.foldl_cons, ih _ _ (fun y hy => hne y (List.mem_cons_of_mem _ hy)),
      lookupA_insertA_ne _ _ (fun e => hne x (List.mem_cons_self _ _) e.symm)]

theorem foldl_insertA_lookup_mem {α β : Type} (key : β → String) (val : β → α) :
    ∀ (xs : List β) (m : AList α) (x : β), x ∈ xs → (xs.map key).Nodup →
    lookupA (xs.foldl (fun m x => insertA m (key x) (val x)) m) (key x) = some (val x) := by
  intro xs
  induction xs with
  | nil => intro m x hx; cases hx
  | cons y rest ih =>
    intro m x hx hnd
    simp only [List.map_cons, List.nodup_cons] at hnd
    rcases List.mem_cons.mp hx with h | h
    · subst h
      rw [List.foldl_cons, foldl_insertA_lookup_not_mem key val rest _ _ ?hne,
        lookupA_insertA_self]
      intro z hz e
      exact hnd.1 (e ▸ List.mem_map_of_mem key hz)
    · rw [List.foldl_cons]
      exact ih _ x h hnd.2

theorem foldl_insertA_mem {α β : Type} (key : β → String) (val : β → α) :
    ∀ (xs : List β) (m : AList α) (kv : String × α),
    kv ∈ xs.foldl (fun m x => insertA m (key x) (val x)) m →
    kv ∈ m ∨ ∃ x ∈ xs, kv = (key x, val x) := by
  intro xs
  induction xs with
  | nil => intro m kv h; exact Or.inl h
  | cons x rest ih =>
    intro m kv h
    rw [List.foldl_cons] at h
    rcases ih _ kv h with h' | h'
    · rcases mem_insertA h' with h'' | h''
      · exact Or.inl h''
      · exact Or.inr ⟨x, List.mem_cons_self _ _, h''⟩
    · rcases h' with ⟨y, hy, he⟩
      exact Or.inr ⟨y, List.mem_cons_of_mem _ hy, he⟩

theorem foldl_insertA_keys_mono {α β : Type} (key : β → String) (val : β → α) :
    ∀ (xs : List β) (m : AList α) (k : String), k ∈ keysOf m →
    k ∈ keysOf (xs.foldl (fun m x => insertA m (key x) (val x)) m) := by
  intro xs
  induction xs with
  | nil => intro m k h; exact h
  | cons x rest ih =>
    intro m k h
    rw [List.foldl_cons]
    exact ih _ _ (keysOf_insertA_mono _ _ h)

theorem foldl_insertA_key_mem {α β : Type} (key : β → String) (val : β → α) :
    ∀ (xs : List β) (m : AList α) (x : β), x ∈ xs →
    key x ∈ keysOf (xs.foldl (fun m x => insertA m (key x) (val x)) m) := by
  intro xs
  induction xs with
  | nil => intro m x hx; cases hx
  | cons y rest ih =>
    intro m x hx
    rcases List.mem_cons.mp hx with h | h
    · subst h
      rw [List.foldl_cons]
      exact foldl_insertA_keys_mono key val rest _ _ (mem_keysOf_insertA_self _ _ _)
    · rw [List.foldl_cons]
      exact ih _ x h

/-! ### `runQuanta` projections -/

theorem runQuanta_nil {Node : Type} (g : DAG Node) (sn : Node → List Nat) (b : CWLBuilder) :
    runQuanta g sn b [] = b := rfl

theorem runQuanta_cons {Node : Type} (g : DAG Node) (sn : Node → List Nat) (b : CWLBuilder)
    (q : Node) (qs : List Node) :
    runQuanta g sn b (q :: qs) = runQuanta g sn (add_quantum g sn b q) qs := rfl

theorem runQuanta_append {Node : Type} (g : DAG Node) (sn : Node → List Nat) (b : CWLBuilder)
    (xs ys : List Node) :
    runQuanta g sn b (xs ++ ys) = runQuanta g sn (runQuanta g sn b xs) ys := by
  simp [runQuanta, List.foldl_append]

theorem runQuanta_steps {Node : Type} (g : DAG Node) (sn : Node → List Nat) :
    ∀ (qs : List Node) (b : CWLBuilder),
    (runQuanta g sn b qs).steps =
      qs.foldl (fun m q => insertA m (jobKey (qid g q)) (nodeStep g q)) b.steps := by
  intro qs
  induction qs with
  | nil => intro b; rfl
  | cons q rest ih => intro b; rw [runQuanta_cons, ih, List.foldl_cons]; rfl

theorem runQuanta_inputs {Node : Type} (g : DAG Node) (sn : Node → List Nat) :
    ∀ (qs : List Node) (b : CWLBuilder),
    (runQuanta g sn b qs).inputs =
      qs.foldl (fun m q => insertA m (quantumKey (qid g q)) (CVal.str "string")) b.inputs := by
  intro qs
  induction qs with
  | nil => intro b; rfl
  | cons q rest ih => intro b; rw [runQuanta_cons, ih, List.foldl_cons]; rfl

theorem runQuanta_outputs {Node : Type} (g : DAG Node) (sn : Node → List Nat) :
    ∀ (qs : List Node) (b : CWLBuilder),
    (runQuanta g sn b qs).outputs =
      qs.foldl (fun m q => insertA m (outKey (qid g q)) (outputsEntry (qid g q))) b.outputs := by
  intro qs
  induction qs with
  | nil => intro b; rfl
  | cons q rest ih => intro b; rw [runQuanta_cons, ih, List.foldl_cons]; rfl

theorem runQuanta_data {Node : Type} (g : DAG Node) (sn : Node → List Nat) :
    ∀ (qs : List Node) (b : CWLBuilder),
    (runQuanta g sn b qs).data =
      qs.foldl
        (fun m q => insertA m (quantumKey (qid g q)) (String.mk (b64encode (sn q)))) b.data := by
  intro qs
  induction qs with
  | nil => intro b; rfl
  | cons q rest ih => intro b; rw [runQuanta_cons, ih, List.foldl_cons]; rfl

/-! ### Step-shape lemmas -/

theorem mapGet_predDict_source (refs : List String) :
    mapGet (predDict refs) "source" = CVal.list (refs.map CVal.str) := by
  unfold predDict
  split <;> rfl

theorem strsOf_strList (rs : List String) : strsOf (CVal.list (rs.map CVal.str)) = rs := by
  induction rs with
  | nil => rfl
  | cons r rest ih =>
    simp only [strsOf, getList, List.map_cons, List.filterMap_cons] at ih ⊢
    rw [ih]

theorem stepSources_nodeStep {Node : Type} (g : DAG Node) (q : Node) :
    stepSources (nodeStep g q) = sourcesOf g q := by
  show strsOf (mapGet (mapGet (mapGet (nodeStep g q) "in") "dependencies") "source") = _
  have h1 : mapGet (nodeStep g q) "in" =
      CVal.map [("dependencies", predDict (sourcesOf g q)),
                (butlerKey (qid g q), CVal.str "butler"),
                (quantumKey (qid g q), CVal.str (quantumKey (qid g q)))] := rfl
  have h2 : ∀ rest, mapGet (CVal.map (("dependencies", predDict (sourcesOf g q)) :: rest))
      "dependencies" = predDict (sourcesOf g q) := by
    intro rest
    simp [mapGet, getMap, lookupA]
  rw [h1, h2, mapGet_predDict_source, strsOf_strList]

theorem stepSources_initStep : stepSources initStep = [] := by
  show strsOf (mapGet (mapGet (mapGet initStep "in") "dependencies") "source") = _
  have h1 : mapGet (mapGet initStep "in") "dependencies" = CVal.map [] := by
    simp [initStep, make_step, mapGet, getMap, lookupA]
  rw [h1]
  rfl

theorem hasLinkMerge_nodeStep {Node : Type} (g : DAG Node) (q : Node) :
    hasLinkMerge (nodeStep g q) = true ↔ (sourcesOf g q).length = 1 := by
  have h1 : mapGet (mapGet (nodeStep g q) "in") "dependencies" = predDict (sourcesOf g q) := by
    have e : mapGet (nodeStep g q) "in" =
        CVal.map [("dependencies", predDict (sourcesOf g q)),
                  (butlerKey (qid g q), CVal.str "butler"),
                  (quantumKey (qid g q), CVal.str (quantumKey (qid g q)))] := rfl
    rw [e]
    simp [mapGet, getMap, lookupA]
  show (lookupA (getMap (mapGet (mapGet (nodeStep g q) "in") "dependencies")) "linkMerge").isSome
      = true ↔ _
  rw [h1]
  unfold predDict
  split
  · rename_i hlen
    simp only [getMap, lookupA, if_neg (show ¬("source" = "linkMerge") by decide), if_pos rfl]
    simp [hlen]
  · rename_i hlen
    simp only [getMap, lookupA, if_neg (show ¬("source" = "linkMerge") by decide)]
    simp [hlen]

theorem sourcesOf_of_preds_nil {Node : Type} (g : DAG Node) (q : Node)
    (h : g.preds q = []) : sourcesOf g q = [initRef] := by
  simp [sourcesOf, predecessorRefs, h]

theorem sourcesOf_of_preds_ne_nil {Node : Type} (g : DAG Node) (q : Node)
    (h : g.preds q ≠ []) : sourcesOf g q = predecessorRefs g q := by
  unfold sourcesOf
  rw [if_neg]
  simp only [predecessorRefs, List.length_map, List.length_eq_zero]
  exact h

/-! ### Claim theorems -/

/-- C1: for every node B and every predecessor A of B in the DAG, the
step emitted for B has a dependency field whose `source` list contains
the reference `"<A-id>_job/<A-id>_output"` built from A's derived
identifier (the absolute value of A's hash). -/
theorem C1_pred_ref_in_sources {Node : Type} (g : DAG Node) (A B : Node)
    (h : A ∈ g.preds B) : outRef (qid g A) ∈ stepSources (nodeStep g B) := by
  rw [stepSources_nodeStep,
    sourcesOf_of_preds_ne_nil g B (by intro e; rw [e] at h; cases h)]
  exact List.mem_map_of_mem _ h

/-- Concrete run of `C1_pred_ref_in_sources` on the two-node chain. -/
theorem C1_witness : outRef (qid gChain 0) ∈ stepSources (nodeStep gChain 1) :=
  C1_pred_ref_in_sources gChain 0 1 (by decide)

/-- C3: a node with zero predecessors gets exactly the one-element
source list containing the initialization step's output reference. -/
theorem C3_no_preds_init_only {Node : Type} (g : DAG Node) (q : Node)
    (h : g.preds q = []) : stepSources (nodeStep g q) = [initRef] := by
  rw [stepSources_nodeStep, sourcesOf_of_preds_nil g q h]

/-- Concrete run of `C3_no_preds_init_only` on the two-node chain. -/
theorem C3_witness : stepSources (nodeStep gChain 0) = [initRef] :=
  C3_no_preds_init_only gChain 0 (by decide)

/-- C4: a node step carries the "merge as nested single value"
annotation exactly when its `source` list has one reference; zero or one
predecessor yields the annotation, while two or more predecessors yield
one source entry per predecessor and no annotation. -/
theorem C4_single_source_merge {Node : Type} (g : DAG Node) (q : Node) :
    (hasLinkMerge (nodeStep g q) = true ↔ (stepSources (nodeStep g q)).length = 1)
    ∧ ((g.preds q).length ≤ 1 → hasLinkMerge (nodeStep g q) = true)
    ∧ (2 ≤ (g.preds q).length →
        stepSources (nodeStep g q) = predecessorRefs g q
        ∧ hasLinkMerge (nodeStep g q) = false) := by
  refine ⟨?_, ?_, ?_⟩
  · rw [stepSources_nodeStep]
    exact hasLinkMerge_nodeStep g q
  · intro hp
    rw [hasLinkMerge_nodeStep]
    by_cases h0 : g.preds q = []
    · rw [sourcesOf_of_preds_nil g q h0]
      rfl
    · rw [sourcesOf_of_preds_ne_nil g q h0]
      have : (g.preds q).length ≠ 0 := fun e => h0 (List.length_eq_zero.mp e)
      simp only [predecessorRefs, List.length_map]
      omega
  · intro hp
    have h0 : g.preds q ≠ [] := by
      intro e
      rw [e] at hp
      simp at hp
    constructor
    · rw [stepSources_nodeStep, sourcesOf_of_preds_ne_nil g q h0]
    · have hlen : (sourcesOf g q).length ≠ 1 := by
        rw [sourcesOf_of_preds_ne_nil g q h0]
        simp only [predecessorRefs, List.length_map]
        omega
      rcases Bool.eq_false_or_eq_true (hasLinkMerge (nodeStep g q)) with h | h
      · exact absurd ((hasLinkMerge_nodeStep g q).mp h) hlen
      · exact h

/-- Concrete run of `C4_single_source_merge` on the fan-in scenario:
the single-predecessor (resp. zero-predecessor) nodes are annotated, the
two-predecessor node gets one entry per predecessor and no annotation. -/
theorem C4_witness :
    hasLinkMerge (nodeStep gFan 0) = true
    ∧ stepSources (nodeStep gFan 2) = predecessorRefs gFan 2
    ∧ hasLinkMerge (nodeStep gFan 2) = false :=
  ⟨(C4_single_source_merge gFan 0).2.1 (by decide),
   ((C4_single_source_merge gFan 2).2.2 (by decide)).1,
   ((C4_single_source_merge gFan 2).2.2 (by decide)).2⟩

/-- C6: the serialized workflow document depends only on the DAG, the
node serializer and the pipeline payload — not on the butler
(context-handle) payload, which lives only in the auxiliary data
document — so re-translating the same DAG yields a byte-identical first
YAML string. -/
theorem C6_workflow_idempotent {Node : Type} (g : DAG Node) (sn : Node → List Nat)
    (pb bb1 bb2 : List Nat) :
    (to_yaml_strings (buildCWL g sn pb bb1)).1
      = (to_yaml_strings (buildCWL g sn pb bb2)).1 := rfl

/-- C8: when two distinct nodes share a derived identifier, `add_quantum`
completes normally for both (it is total) and the second node's step,
input, output and auxiliary-data entries silently replace the first
node's under the shared keys, with no entry count change. -/
theorem C8_collision_overwrites {Node : Type} (g : DAG Node) (sn : Node → List Nat)
    (b : CWLBuilder) (a c : Node) (hne : a ≠ c) (hcol : qid g a = qid g c) :
    lookupA (add_quantum g sn (add_quantum g sn b a) c).steps (jobKey (qid g a))
        = some (nodeStep g c)
    ∧ lookupA (add_quantum g sn (add_quantum g sn b a) c).inputs (quantumKey (qid g a))
        = some (CVal.str "string")
    ∧ lookupA (add_quantum g sn (add_quantum g sn b a) c).outputs (outKey (qid g a))
        = some (outputsEntry (qid g c))
    ∧ lookupA (add_quantum g sn (add_quantum g sn b a) c).data (quantumKey (qid g a))
        = some (String.mk (b64encode (sn c)))
    ∧ (add_quantum g sn (add_quantum g sn b a) c).steps.length
        = (add_quantum g sn b a).steps.length
    ∧ (add_quantum g sn (add_quantum g sn b a) c).inputs.length
        = (add_quantum g sn b a).inputs.length
    ∧ (add_quantum g sn (add_quantum g sn b a) c).outputs.length
        = (add_quantum g sn b a).outputs.length
    ∧ (add_quantum g sn (add_quantum g sn b a) c).data.length
        = (add_quantum g sn b a).data.length := by
  rw [hcol]
  refine ⟨lookupA_insertA_self _ _ _, lookupA_insertA_self _ _ _,
    lookupA_insertA_self _ _ _, lookupA_insertA_self _ _ _, ?_, ?_, ?_, ?_⟩
  · exact length_insertA_of_mem _ (hcol ▸ mem_keysOf_insertA_self _ _ _)
  · exact length_insertA_of_mem _ (hcol ▸ mem_keysOf_insertA_self _ _ _)
  · exact length_insertA_of_mem _ (hcol ▸ mem_keysOf_insertA_self _ _ _)
  · exact length_insertA_of_mem _ (hcol ▸ mem_keysOf_insertA_self _ _ _)

/-- Concrete run of `C8_collision_overwrites` on two distinct nodes with
equal hashes. -/
theorem C8_witness :
    lookupA (add_quantum gColl serW (add_quantum gColl serW (initBuilder []) 0) 1).steps
      (jobKey (qid gColl 0)) = some (nodeStep gColl 1) :=
  (C8_collision_overwrites gColl serW (initBuilder []) 0 1 (by decide) (by decide)).1

/-- C9: adding a node whose derived keys are all fresh only appends new
entries: the header fields are unchanged and each of the four maps is
the old map with exactly one appended entry (so every previously present
entry, including the `butler`/`pipeline` inputs and the `init_job` step,
is untouched). -/
theorem C9_add_quantum_frame {Node : Type} (g : DAG Node) (sn : Node → List Nat)
    (b : CWLBuilder) (q : Node)
    (h1 : jobKey (qid g q) ∉ keysOf b.steps)
    (h2 : quantumKey (qid g q) ∉ keysOf b.inputs)
    (h3 : outKey (qid g q) ∉ keysOf b.outputs)
    (h4 : quantumKey (qid g q) ∉ keysOf b.data) :
    (add_quantum g sn b q).cwlVersion = b.cwlVersion
    ∧ (add_quantum g sn b q).klass = b.klass
    ∧ (add_quantum g sn b q).steps = b.steps ++ [(jobKey (qid g q), nodeStep g q)]
    ∧ (add_quantum g sn b q).inputs = b.inputs ++ [(quantumKey (qid g q), CVal.str "string")]
    ∧ (add_quantum g sn b q).outputs = b.outputs ++ [(outKey (qid g q), outputsEntry (qid g q))]
    ∧ (add_quantum g sn b q).data
        = b.data ++ [(quantumKey (qid g q), String.mk (b64encode (sn q)))] :=
  ⟨rfl, rfl, insertA_of_not_mem _ h1, insertA_of_not_mem _ h2,
   insertA_of_not_mem _ h3, insertA_of_not_mem _ h4⟩

/-- Concrete run of `C9_add_quantum_frame` on the initialized builder. -/
theorem C9_witness :
    (add_quantum gChain serW (initBuilder []) 0).steps
      = (initBuilder []).steps ++ [(jobKey (qid gChain 0), nodeStep gChain 0)] :=
  (C9_add_quantum_frame gChain serW (initBuilder []) 0
    (by decide) (by decide) (by decide) (by decide)).2.2.1

/-- C2: on a DAG whose derived identifiers are pairwise distinct the
workflow document has exactly one step per node plus the single
initialization step. -/
theorem C2_steps_count {Node : Type} (g : DAG Node) (sn : Node → List Nat) (pb bb : List Nat)
    (hids : (g.nodes.map fun q => qid g q).Nodup) :
    (buildCWL g sn pb bb).steps.length = g.nodes.length + 1 := by
  have hnd : (g.nodes.map fun q => jobKey (qid g q)).Nodup := by
    have e : (g.nodes.map fun q => jobKey (qid g q))
        = (g.nodes.map fun q => qid g q).map jobKey := by
      rw [List.map_map]
      rfl
    rw [e]
    exact List.Nodup.map (fun a b h => jobKey_inj h) hids
  have hfresh : ∀ q ∈ g.nodes, jobKey (qid g q) ∉ keysOf (initBuilder pb).steps := by
    intro q _ hmem
    have he : jobKey (qid g q) = "init_job" := by simpa [initBuilder, keysOf] using hmem
    exact jobKey_ne_init _ he
  have hlen := foldl_insertA_length (fun q => jobKey (qid g q)) (fun q => nodeStep g q)
    g.nodes (initBuilder pb).steps hnd hfresh
  have hsteps : (buildCWL g sn pb bb).steps
      = g.nodes.foldl (fun m q => insertA m (jobKey (qid g q)) (nodeStep g q))
        (initBuilder pb).steps := by
    show (runQuanta g sn (initBuilder pb) g.nodes).steps = _
    rw [runQuanta_steps]
  rw [hsteps]
  have hi : (initBuilder pb).steps.length = 1 := rfl
  exact hlen.trans (by rw [hi]; omega)

/-- Concrete run of `C2_steps_count` on the two-node chain. -/
theorem C2_witness : (buildCWL gChain serW [] []).steps.length = gChain.nodes.length + 1 :=
  C2_steps_count gChain serW [] [] (by decide)

/-- C7: on a DAG with pairwise distinct derived identifiers the
auxiliary data document has exactly N+2 entries (pipeline, butler, one
per node), and each stored node value text-safe-decodes back to exactly
the node's serialized bytes. -/
theorem C7_aux_data_roundtrip {Node : Type} (g : DAG Node) (sn : Node → List Nat)
    (pb bb : List Nat) (hids : (g.nodes.map fun q => qid g q).Nodup)
    (hbytes : ∀ q ∈ g.nodes, ∀ b ∈ sn q, b < 256) :
    (buildCWL g sn pb bb).data.length = g.nodes.length + 2
    ∧ ∀ q ∈ g.nodes, ∃ s : String,
        lookupA (buildCWL g sn pb bb).data (quantumKey (qid g q)) = some s
        ∧ b64decode s.data = sn q := by
  have hnd : (g.nodes.map fun q => quantumKey (qid g q)).Nodup := by
    have e : (g.nodes.map fun q => quantumKey (qid g q))
        = (g.nodes.map fun q => qid g q).map quantumKey := by
      rw [List.map_map]
      rfl
    rw [e]
    exact List.Nodup.map (fun a b h => quantumKey_inj h) hids
  have hfresh : ∀ q ∈ g.nodes, quantumKey (qid g q) ∉ keysOf (initBuilder pb).data := by
    intro q _ hmem
    have he : quantumKey (qid g q) = "pipeline" := by simpa [initBuilder, keysOf] using hmem
    exact quantumKey_ne_pipeline _ he
  have hdata : (runQuanta g sn (initBuilder pb) g.nodes).data
      = g.nodes.foldl
          (fun m q => insertA m (quantumKey (qid g q)) (String.mk (b64encode (sn q))))
          (initBuilder pb).data := runQuanta_data g sn g.nodes (initBuilder pb)
  have hbuild : (buildCWL g sn pb bb).data
      = insertA (runQuanta g sn (initBuilder pb) g.nodes).data "butler"
          (String.mk (b64encode bb)) := rfl
  have hkeys : keysOf (runQuanta g sn (initBuilder pb) g.nodes).data
      = keysOf (initBuilder pb).data ++ g.nodes.map fun q => quantumKey (qid g q) := by
    rw [hdata]
    exact foldl_insertA_keys (fun q => quantumKey (qid g q))
      (fun q => String.mk (b64encode (sn q))) g.nodes (initBuilder pb).data hfresh hnd
  have hbf : "butler" ∉ keysOf (runQuanta g sn (initBuilder pb) g.nodes).data := by
    rw [hkeys]
    intro hmem
    rcases List.mem_append.mp hmem with h | h
    · have he : ("butler" : String) = "pipeline" := by simpa [initBuilder, keysOf] using h
      exact absurd he (by decide)
    · rcases List.mem_map.mp h with ⟨q, _, he⟩
      exact quantumKey_ne_butler _ he
  constructor
  · rw [hbuild, insertA_of_not_mem _ hbf]
    have hlen : (runQuanta g sn (initBuilder pb) g.nodes).data.length
        = (initBuilder pb).data.length + g.nodes.length := by
      rw [hdata]
      exact foldl_insertA_length (fun q => quantumKey (qid g q))
        (fun q => String.mk (b64encode (sn q))) g.nodes (initBuilder pb).data hnd hfresh
    have hi : (initBuilder pb).data.length = 1 := rfl
    simp only [List.length_append, List.length_cons, List.length_nil]
    omega
  · intro q hq
    refine ⟨String.mk (b64encode (sn q)), ?_, ?_⟩
    · rw [hbuild, lookupA_insertA_ne _ _ (quantumKey_ne_butler _), hdata]
      exact foldl_insertA_lookup_mem (fun q => quantumKey (qid g q))
        (fun q => String.mk (b64encode (sn q))) g.nodes (initBuilder pb).data q hq hnd
    · exact b64_roundtrip _ (hbytes q hq)

/-- Concrete run of `C7_aux_data_roundtrip` on the two-node chain. -/
theorem C7_witness : (buildCWL gChain serW [] []).data.length = gChain.nodes.length + 2 :=
  (C7_aux_data_roundtrip gChain serW [] [] (by decide) (by decide)).1

/-- C10: every step of the produced workflow document — the
initialization step and every node step — declares exactly one output:
its `out` field is the one-element list of its output key and its
`run.outputs` map has exactly that key, stdout-typed. -/
theorem C10_single_output {Node : Type} (g : DAG Node) (sn : Node → List Nat)
    (pb bb : List Nat) :
    ∀ kv ∈ (buildCWL g sn pb bb).steps, singleOutput kv.2 := by
  intro kv hkv
  have hsteps : (buildCWL g sn pb bb).steps
      = g.nodes.foldl (fun m q => insertA m (jobKey (qid g q)) (nodeStep g q))
        (initBuilder pb).steps := by
    show (runQuanta g sn (initBuilder pb) g.nodes).steps = _
    rw [runQuanta_steps]
  rw [hsteps] at hkv
  rcases foldl_insertA_mem (fun q => jobKey (qid g q)) (fun q => nodeStep g q)
      g.nodes _ kv hkv with h | ⟨q, _, he⟩
  · have he : kv = ("init_job", initStep) := by simpa [initBuilder] using h
    have he2 : kv.2 = initStep := by rw [he]
    rw [he2]
    exact ⟨"init_job_output", rfl, rfl⟩
  · have he2 : kv.2 = nodeStep g q := by rw [he]
    rw [he2]
    exact ⟨outKey (qid g q), rfl, rfl⟩

/-- Concrete run of `C10_single_output` on the initialization step of
the empty DAG's document. -/
theorem C10_witness : singleOutput initStep :=
  C10_single_output gEmpty serW [] [] ("init_job", initStep) (List.mem_cons_self _ _)

/-! ### C5: the no-dangling-reference invariant -/

theorem refOK_mono {steps steps' : AList CVal}
    (hsub : ∀ k, k ∈ keysOf steps → k ∈ keysOf steps') {r : String}
    (h : refOK steps r) : refOK steps' r := by
  rcases h with h | ⟨n, hn, hr⟩
  · exact Or.inl h
  · exact Or.inr ⟨n, hsub _ hn, hr⟩

theorem add_quantum_refs_ok {Node : Type} (g : DAG Node) (sn : Node → List Nat)
    (b : CWLBuilder) (q : Node) (hb : allRefsOK b.steps)
    (hpred : ∀ p ∈ g.preds q, jobKey (qid g p) ∈ keysOf b.steps) :
    allRefsOK (add_quantum g sn b q).steps := by
  intro kv hkv r hr
  have hmono : ∀ k, k ∈ keysOf b.steps → k ∈ keysOf (add_quantum g sn b q).steps :=
    fun k hk => keysOf_insertA_mono _ _ hk
  rcases mem_insertA hkv with h | h
  · exact refOK_mono hmono (hb kv h r hr)
  · have he2 : kv.2 = nodeStep g q := by rw [h]
    rw [he2, stepSources_nodeStep] at hr
    by_cases hp : g.preds q = []
    · rw [sourcesOf_of_preds_nil g q hp, List.mem_singleton] at hr
      exact Or.inl hr
    · rw [sourcesOf_of_preds_ne_nil g q hp] at hr
      rcases List.mem_map.mp hr with ⟨p, hpm, hpe⟩
      exact Or.inr ⟨qid g p, hmono _ (hpred p hpm), hpe.symm⟩

/-- C5 (amended): when the visiting order presents every node after all
of its predecessors, then after each processed prefix every dependency
reference of every step in the document names the initialization output
or the output of a step already present. -/
theorem C5_no_dangling_refs {Node : Type} (g : DAG Node) (sn : Node → List Nat)
    (pb : List Nat)
    (hord : ∀ i (hi : i < g.nodes.length), ∀ p ∈ g.preds (g.nodes[i]),
      p ∈ g.nodes.take i) :
    ∀ k, allRefsOK (runQuanta g sn (initBuilder pb) (g.nodes.take k)).steps := by
  intro k
  induction k with
  | zero =>
    intro kv hkv r hr
    simp only [List.take_zero, runQuanta_nil] at hkv
    have he : kv = ("init_job", initStep) := by simpa [initBuilder] using hkv
    have he2 : kv.2 = initStep := by rw [he]
    rw [he2, stepSources_initStep] at hr
    cases hr
  | succ n ih =>
    by_cases hn : n < g.nodes.length
    · have htake : g.nodes.take (n + 1) = g.nodes.take n ++ [g.nodes[n]] := by
        rw [List.take_succ, List.getElem?_eq_getElem hn]
        rfl
      rw [htake, runQuanta_append]
      apply add_quantum_refs_ok
      · exact ih
      · intro p hp
        have hmem : p ∈ g.nodes.take n := hord n hn p hp
        have hst : (runQuanta g sn (initBuilder pb) (g.nodes.take n)).steps
            = (g.nodes.take n).foldl
                (fun m q => insertA m (jobKey (qid g q)) (nodeStep g q))
                (initBuilder pb).steps := runQuanta_steps g sn _ _
        rw [hst]
        exact foldl_insertA_key_mem (fun q => jobKey (qid g q)) (fun q => nodeStep g q)
          (g.nodes.take n) _ p hmem
    · have htake : g.nodes.take (n + 1) = g.nodes.take n := by
        rw [List.take_of_length_le (by omega), List.take_of_length_le (by omega)]
      rw [htake]
      exact ih

/-- Concrete run of `C5_no_dangling_refs` on the two-node chain visited
in dependency order. -/
theorem C5_witness :
    allRefsOK (runQuanta gChain serW (initBuilder []) (gChain.nodes.take 2)).steps :=
  C5_no_dangling_refs gChain serW [] (by decide) 2

/-- C5 counterexample: with the chain visited against dependency order
(node 1 before its predecessor 0), after the first processed node the
document holds a step whose dependency reference names a step absent
from the document, so the claim's invariant fails for that visiting
order. -/
theorem C5_counterexample :
    ¬ allRefsOK (runQuanta gChainRev serW (initBuilder []) (gChainRev.nodes.take 1)).steps := by
  intro h
  have hmem : (jobKey 1, nodeStep gChainRev 1)
      ∈ (runQuanta gChainRev serW (initBuilder []) (gChainRev.nodes.take 1)).steps := by
    show (jobKey 1, nodeStep gChainRev 1)
        ∈ [("init_job", initStep), (jobKey 1, nodeStep gChainRev 1)]
    exact List.mem_cons_of_mem _ (List.mem_cons_self _ _)
  have hsrc : outRef 0 ∈ stepSources (nodeStep gChainRev 1) := by
    rw [stepSources_nodeStep]
    show outRef 0 ∈ sourcesOf gChainRev 1
    have he : sourcesOf gChainRev 1 = [outRef 0] := rfl
    rw [he]
    exact List.mem_singleton.mpr rfl
  have h2 := h (jobKey 1, nodeStep gChainRev 1) hmem (outRef 0) hsrc
  rcases h2 with h2 | ⟨n, hn, hr⟩
  · exact absurd h2 (by decide)
  · have hk : keysOf (runQuanta gChainRev serW (initBuilder []) (gChainRev.nodes.take 1)).steps
        = ["init_job", jobKey 1] := rfl
    rw [hk] at hn
    rcases List.mem_cons.mp hn with hn | hn
    · exact jobKey_ne_init n hn
    · have hn1 : n = 1 := jobKey_inj (List.mem_singleton.mp hn)
      rw [hn1] at hr
      exact absurd hr (by decide)

end CtrlCwl
